import Mathlib

/-!
Verification of the interactive time-series chart hover/scaling engine
(`VisxLineChart` component): a shallow embedding in Lean 4 of the scale
builder (y-domain niceification), the per-series hover-sample resolver,
the zero-label dedup filter, the tooltip stacking pass, the pointer-event
coalescing queue and the hover session controller, together with proofs
of the functional properties stated in the specification.

Numbers are modelled as exact rationals (`ℚ`); JavaScript `Math.floor`,
`Math.ceil`, `Math.round` become `Int.floor`, `Int.ceil`, `round`.
-/

namespace VisxChart

/-- A data point after the accessors have been applied: `x` is the
timestamp (milliseconds, `xAccessor(d).getTime()`), `y` the numeric value
(`yAccessor(d)`). -/
structure DataPoint where
  x : ℚ
  y : ℚ
deriving DecidableEq

/-- One line of the chart: `{ dataKey, data }` (stroke/name play no role in
the verified logic). -/
structure LineSeriesConfig where
  dataKey : String
  data : List DataPoint
deriving DecidableEq

/-- A linear scale with domain `[d0, d1]` and range `[r0, r1]`, as built by
`scaleTime` / `scaleLinear`. -/
structure LinearScale where
  d0 : ℚ
  d1 : ℚ
  r0 : ℚ
  r1 : ℚ
deriving DecidableEq

/-- Map a domain value to a pixel (d3 linear interpolation). -/
def LinearScale.toPixel (s : LinearScale) (v : ℚ) : ℚ :=
  s.r0 + (v - s.d0) * (s.r1 - s.r0) / (s.d1 - s.d0)

/-- Invert a pixel back to a domain value (`scale.invert`). -/
def LinearScale.invert (s : LinearScale) (p : ℚ) : ℚ :=
  s.d0 + (p - s.r0) * (s.d1 - s.d0) / (s.r1 - s.r0)

/-- Tooltip state pushed by `processCalculationQueue`:
`{ x: xPos, y: yPos, datum: closestPoint, lineConfig: line }`. -/
structure TooltipState where
  x : ℚ
  y : ℚ
  datum : DataPoint
  lineConfig : LineSeriesConfig
deriving DecidableEq

/-- The hover state published by the controller. -/
structure HoverState where
  xPosition : ℚ
  tooltips : List TooltipState
deriving DecidableEq

/-- Distance used by the closest-point search:
`Math.abs(xAccessor(point).getTime() - hoveredTime.getTime())`. -/
def distTo (t : ℚ) (p : DataPoint) : ℚ := |p.x - t|

/-- The `line.data.forEach` loop of `processCalculationQueue`: running best
point and best distance, replaced whenever a strictly smaller distance is
found.  The JS loop seeds `closestPoint = line.data[0]`,
`minDistance = Infinity`, so its first iteration always installs
`line.data[0]` with its real distance; `findClosest t p (distTo t p) ps`
is that loop after the first iteration. -/
def findClosest (t : ℚ) : DataPoint → ℚ → List DataPoint → DataPoint
  | best, _, [] => best
  | best, d, q :: qs =>
    if distTo t q < d then findClosest t q (distTo t q) qs
    else findClosest t best d qs

/-- Closest data point of a non-empty series `p :: ps` to the hovered
time `t`. -/
def closestPoint (t : ℚ) (p : DataPoint) (ps : List DataPoint) : DataPoint :=
  findClosest t p (distTo t p) ps

/-- Models `yValue.toFixed(2) === '0.00'`: by the `toFixed` rounding rule
(nearest integer numerator, ties to the larger), a non-negative value
formats as `"0.00"` iff `⌊100 * y + 1/2⌋ = 0`; a strictly negative value
formats with a leading minus sign (`"-0.00"` at smallest), never `"0.00"`. -/
def isDisplayZero (y : ℚ) : Bool :=
  decide (0 ≤ y) && decide (⌊100 * y + 1 / 2⌋ = (0 : ℤ))

/-- The duplicate-zero filter of `processCalculationQueue`: keep every
tooltip whose value does not display as `"0.00"`; among those that do,
keep only the first (`hasSeenZero` flag). -/
def filterZeroTooltips (seen : Bool) : List TooltipState → List TooltipState
  | [] => []
  | tp :: tps =>
    if isDisplayZero tp.datum.y then
      if seen then filterZeroTooltips true tps
      else tp :: filterZeroTooltips true tps
    else tp :: filterZeroTooltips seen tps

/-- Per-series part of `processCalculationQueue`: empty series are skipped
(`if (line.data.length === 0) return`), otherwise the closest point is
resolved and mapped through the scales. -/
def resolveSeries (xsc ysc : LinearScale) (hoveredTime : ℚ)
    (line : LineSeriesConfig) : Option TooltipState :=
  match line.data with
  | [] => none
  | p :: ps =>
    let c := closestPoint hoveredTime p ps
    some ⟨xsc.toPixel c.x, ysc.toPixel c.y, c, line⟩

/-- `processCalculationQueue(targetX)`: invert the pointer pixel to a time,
resolve one tooltip per non-empty series, drop duplicate zero labels, and
anchor the published x position at the first retained tooltip (falling back
to the raw pointer pixel when none is retained). -/
def processCalculationQueue (xsc ysc : LinearScale)
    (series : List LineSeriesConfig) (targetX : ℚ) : HoverState :=
  let hoveredTime := xsc.invert targetX
  let newTooltips := series.filterMap (resolveSeries xsc ysc hoveredTime)
  let filteredTooltips := filterZeroTooltips false newTooltips
  { xPosition :=
      match filteredTooltips with
      | [] => targetX
      | tp :: _ => tp.x
    tooltips := filteredTooltips }

/-! ## Closest-point search: specification lemmas -/

theorem findClosest_cons (t : ℚ) (best : DataPoint) (d : ℚ) (q : DataPoint)
    (qs : List DataPoint) :
    findClosest t best d (q :: qs) =
      if distTo t q < d then findClosest t q (distTo t q) qs
      else findClosest t best d qs := rfl

theorem findClosest_spec (t : ℚ) :
    ∀ (l : List DataPoint) (p : DataPoint),
      (findClosest t p (distTo t p) l = p ∧ ∀ q ∈ l, distTo t p ≤ distTo t q) ∨
      (∃ l₁ l₂, l = l₁ ++ findClosest t p (distTo t p) l :: l₂ ∧
        distTo t (findClosest t p (distTo t p) l) < distTo t p ∧
        (∀ q ∈ l₁, distTo t (findClosest t p (distTo t p) l) < distTo t q) ∧
        (∀ q ∈ l₂, distTo t (findClosest t p (distTo t p) l) ≤ distTo t q)) := by
  intro l
  induction l with
  | nil =>
    intro p
    left
    exact ⟨rfl, by simp⟩
  | cons q qs ih =>
    intro p
    by_cases hq : distTo t q < distTo t p
    · have hunfold : findClosest t p (distTo t p) (q :: qs) =
          findClosest t q (distTo t q) qs := by
        rw [findClosest_cons, if_pos hq]
      rcases ih q with ⟨heq, hall⟩ | ⟨l₁, l₂, hsplit, hlt, hleft, hright⟩
      · right
        refine ⟨[], qs, ?_, ?_, ?_, ?_⟩
        · simp [hunfold, heq]
        · rw [hunfold, heq]; exact hq
        · simp
        · intro r hr; rw [hunfold, heq]; exact hall r hr
      · right
        refine ⟨q :: l₁, l₂, ?_, ?_, ?_, ?_⟩
        · rw [hunfold, List.cons_append]
          exact congrArg (List.cons q) hsplit
        · rw [hunfold]; exact lt_trans hlt hq
        · intro r hr
          rcases List.mem_cons.mp hr with rfl | hr'
          · rw [hunfold]; exact hlt
          · rw [hunfold]; exact hleft r hr'
        · intro r hr; rw [hunfold]; exact hright r hr
    · have hunfold : findClosest t p (distTo t p) (q :: qs) =
          findClosest t p (distTo t p) qs := by
        rw [findClosest_cons, if_neg hq]
      have hpq : distTo t p ≤ distTo t q := le_of_not_lt hq
      rcases ih p with ⟨heq, hall⟩ | ⟨l₁, l₂, hsplit, hlt, hleft, hright⟩
      · left
        refine ⟨by rw [hunfold]; exact heq, ?_⟩
        intro r hr
        rcases List.mem_cons.mp hr with rfl | hr'
        · exact hpq
        · exact hall r hr'
      · right
        refine ⟨q :: l₁, l₂, ?_, ?_, ?_, ?_⟩
        · rw [hunfold, List.cons_append]
          exact congrArg (List.cons q) hsplit
        · rw [hunfold]; exact hlt
        · intro r hr
          rcases List.mem_cons.mp hr with rfl | hr'
          · rw [hunfold]; exact lt_of_lt_of_le hlt hpq
          · rw [hunfold]; exact hleft r hr'
        · intro r hr; rw [hunfold]; exact hright r hr

theorem findClosest_mem (t : ℚ) (l : List DataPoint) (p : DataPoint) :
    findClosest t p (distTo t p) l ∈ p :: l := by
  set c := findClosest t p (distTo t p) l with hc
  rcases findClosest_spec t l p with ⟨heq, _⟩ | ⟨l₁, l₂, hsplit, _, _, _⟩
  · rw [← hc] at heq
    rw [heq]
    exact List.mem_cons_self p l
  · rw [← hc] at hsplit
    apply List.mem_cons_of_mem
    rw [hsplit]
    exact List.mem_append_right l₁ (List.mem_cons_self _ _)

/-! ## Scale builder: y-domain niceification -/

/-- The fixed ascending candidate-interval list (`niceIntervals` in the
scale-building `useMemo`). -/
def niceIntervals : List ℚ :=
  [1/1000, 2/1000, 5/1000, 1/100, 2/100, 5/100, 1/10, 2/10, 5/10, 1, 2, 5,
   10, 20, 50, 100, 200, 500, 1000]

/-- `countTicks(interval, min, max)`: how many ticks an interval would
produce, i.e. `Math.round((maxTick - minTick) / interval) + 1` with
`minTick = Math.floor(min / interval) * interval` and
`maxTick = Math.ceil(max / interval) * interval`. -/
def countTicks (interval dataMin dataMax : ℚ) : ℤ :=
  round ((⌈dataMax / interval⌉ * interval - ⌊dataMin / interval⌋ * interval) / interval) + 1

/-- The descending `for` loop over `niceIntervals`: the first candidate from
the top with at least `K` ticks wins; `bestInterval` was seeded with
`niceIntervals[0]`, which therefore is the fallback when no candidate
qualifies. -/
def bestInterval (K : ℤ) (dataMin dataMax : ℚ) : ℚ :=
  match niceIntervals.reverse.find? (fun i => decide (K ≤ countTicks i dataMin dataMax)) with
  | some i => i
  | none => niceIntervals.headI

/-- The final niceified y-domain
`[Math.floor(dataMin / bestInterval) * bestInterval,
  Math.ceil(dataMax / bestInterval) * bestInterval]`. -/
def yDomainNice (K : ℤ) (dataMin dataMax : ℚ) : ℚ × ℚ :=
  (⌊dataMin / bestInterval K dataMin dataMax⌋ * bestInterval K dataMin dataMax,
   ⌈dataMax / bestInterval K dataMin dataMax⌉ * bestInterval K dataMin dataMax)

/-- `let yExtent = yDomain || extent(allData, yAccessor)` followed by the
unconditional adjustment (`shouldAdjustDomain` is hardcoded `true`). -/
def scalesYDomain (K : ℤ) (yDomain : Option (ℚ × ℚ)) (dataExtent : ℚ × ℚ) : ℚ × ℚ :=
  let e := yDomain.getD dataExtent
  yDomainNice K e.1 e.2

theorem niceIntervals_sorted : niceIntervals.Pairwise (fun a b => a ≤ b) := by
  simp only [niceIntervals, List.pairwise_cons, List.mem_cons]
  norm_num

theorem niceIntervals_pos : ∀ i ∈ niceIntervals, 0 < i := by
  intro i hi
  fin_cases hi <;> norm_num

theorem countTicks_eq (i m M : ℚ) (hi : i ≠ 0) :
    countTicks i m M = ⌈M / i⌉ - ⌊m / i⌋ + 1 := by
  unfold countTicks
  have h : (↑⌈M / i⌉ * i - ↑⌊m / i⌋ * i) = ((⌈M / i⌉ - ⌊m / i⌋ : ℤ) : ℚ) * i := by
    push_cast
    ring
  rw [h, mul_div_assoc, div_self hi, mul_one, round_intCast]

theorem le_countTicks_of_bounds (K a b : ℤ) (i m M : ℚ) (hi : i ≠ 0)
    (hma : m / i < (a : ℚ) + 1) (hMb : (b : ℚ) - 1 < M / i) (hK : K ≤ b - a + 1) :
    K ≤ countTicks i m M := by
  rw [countTicks_eq i m M hi]
  have h1 : ⌊m / i⌋ < a + 1 := Int.floor_lt.mpr (by push_cast; linarith)
  have h2 : b ≤ ⌈M / i⌉ := by
    by_contra hc
    push_neg at hc
    have hle : ⌈M / i⌉ ≤ b - 1 := by omega
    have := Int.ceil_le.mp hle
    push_cast at this
    linarith
  omega

theorem countTicks_lt_of_bounds (K a b : ℤ) (i m M : ℚ) (hi : i ≠ 0)
    (hma : (a : ℚ) ≤ m / i) (hMb : M / i ≤ (b : ℚ)) (hK : b - a + 2 ≤ K) :
    countTicks i m M < K := by
  rw [countTicks_eq i m M hi]
  have h1 : a ≤ ⌊m / i⌋ := Int.le_floor.mpr hma
  have h2 : ⌈M / i⌉ ≤ b := Int.ceil_le.mpr hMb
  omega

theorem countTicks_degenerate (i v : ℚ) (hi : i ≠ 0) : countTicks i v v ≤ 2 := by
  rw [countTicks_eq i v v hi]
  have h1 := Int.ceil_le_floor_add_one (v / i)
  omega

theorem find?_descending (P : ℚ → Bool) :
    ∀ l : List ℚ, l.Pairwise (fun a b => b ≤ a) →
      ∀ x ∈ l, P x = true → (∀ j ∈ l, x < j → P j = false) → l.find? P = some x := by
  intro l
  induction l with
  | nil => intro _ x hx; exact absurd hx (List.not_mem_nil x)
  | cons a rest ih =>
    intro hsorted x hmem hPx hgt
    rcases List.pairwise_cons.mp hsorted with ⟨hle, htail⟩
    by_cases hPa : P a = true
    · have hxa : x ≤ a := by
        rcases List.mem_cons.mp hmem with rfl | hm
        · exact le_refl x
        · exact hle x hm
      have hnlt : ¬ x < a := by
        intro hlt
        rw [hgt a (List.mem_cons_self a rest) hlt] at hPa
        exact Bool.false_ne_true hPa
      rw [List.find?_cons_of_pos _ hPa, le_antisymm hxa (not_lt.mp hnlt)]
    · have hxmem : x ∈ rest := by
        rcases List.mem_cons.mp hmem with rfl | hm
        · exact absurd hPx hPa
        · exact hm
      rw [List.find?_cons_of_neg _ hPa]
      exact ih htail x hxmem hPx fun j hj hlt => hgt j (List.mem_cons_of_mem a hj) hlt

theorem find?_descending_max (P : ℚ → Bool) :
    ∀ l : List ℚ, l.Pairwise (fun a b => b ≤ a) →
      ∀ y, l.find? P = some y → P y = true ∧ y ∈ l ∧ ∀ j ∈ l, P j = true → j ≤ y := by
  intro l
  induction l with
  | nil => intro _ y hy; simp [List.find?] at hy
  | cons a rest ih =>
    intro hsorted y hy
    rcases List.pairwise_cons.mp hsorted with ⟨hle, htail⟩
    by_cases hPa : P a = true
    · rw [List.find?_cons_of_pos _ hPa, Option.some.injEq] at hy
      obtain rfl := hy
      refine ⟨hPa, List.mem_cons_self a rest, ?_⟩
      intro j hj _
      rcases List.mem_cons.mp hj with rfl | hm
      · exact le_refl j
      · exact hle j hm
    · rw [List.find?_cons_of_neg _ hPa] at hy
      rcases ih htail y hy with ⟨hPy, hymem, hmax⟩
      refine ⟨hPy, List.mem_cons_of_mem a hymem, ?_⟩
      intro j hj hPj
      rcases List.mem_cons.mp hj with rfl | hm
      · exact absurd hPj hPa
      · exact hmax j hm hPj

theorem niceIntervals_reverse_sorted :
    niceIntervals.reverse.Pairwise (fun a b : ℚ => b ≤ a) := by
  rw [List.pairwise_reverse]
  exact niceIntervals_sorted

theorem bestInterval_eq_of_found (K : ℤ) (m M x : ℚ) (hmem : x ∈ niceIntervals)
    (hx : K ≤ countTicks x m M)
    (hgt : ∀ j ∈ niceIntervals, x < j → countTicks j m M < K) :
    bestInterval K m M = x := by
  unfold bestInterval
  have hfind : niceIntervals.reverse.find? (fun i => decide (K ≤ countTicks i m M)) = some x := by
    apply find?_descending _ _ niceIntervals_reverse_sorted
    · rw [List.mem_reverse]; exact hmem
    · simpa using hx
    · intro j hj hlt
      simp only [decide_eq_false_iff_not, not_le]
      exact hgt j (List.mem_reverse.mp hj) hlt
  rw [hfind]

theorem bestInterval_eq_fallback (K : ℤ) (m M : ℚ)
    (hall : ∀ j ∈ niceIntervals, countTicks j m M < K) :
    bestInterval K m M = 1 / 1000 := by
  unfold bestInterval
  have hfind : niceIntervals.reverse.find? (fun i => decide (K ≤ countTicks i m M)) = none := by
    rw [List.find?_eq_none]
    intro j hj
    simp only [decide_eq_true_eq, not_le]
    exact hall j (List.mem_reverse.mp hj)
  rw [hfind]
  rfl

theorem bestInterval_mem (K : ℤ) (m M : ℚ) : bestInterval K m M ∈ niceIntervals := by
  unfold bestInterval
  cases hfind : niceIntervals.reverse.find? (fun i => decide (K ≤ countTicks i m M)) with
  | none => simp [niceIntervals]
  | some i => exact List.mem_reverse.mp (List.mem_of_find?_eq_some hfind)

theorem bestInterval_pos (K : ℤ) (m M : ℚ) : 0 < bestInterval K m M :=
  niceIntervals_pos _ (bestInterval_mem K m M)

/-- C2: for every extent and minimum-tick request `K`, the niceification
picks the largest qualifying candidate interval, falls back to the smallest
candidate `0.001` when none qualifies, and produces the domain
`[floor(min/i)*i, ceil(max/i)*i]`. -/
theorem c2_yDomain_niceification (K : ℤ) (dataMin dataMax : ℚ) :
    bestInterval K dataMin dataMax ∈ niceIntervals ∧
    ((∃ j ∈ niceIntervals, K ≤ countTicks j dataMin dataMax) →
      K ≤ countTicks (bestInterval K dataMin dataMax) dataMin dataMax ∧
      ∀ j ∈ niceIntervals, K ≤ countTicks j dataMin dataMax →
        j ≤ bestInterval K dataMin dataMax) ∧
    ((∀ j ∈ niceIntervals, countTicks j dataMin dataMax < K) →
      bestInterval K dataMin dataMax = 1 / 1000) ∧
    yDomainNice K dataMin dataMax =
      (⌊dataMin / bestInterval K dataMin dataMax⌋ * bestInterval K dataMin dataMax,
       ⌈dataMax / bestInterval K dataMin dataMax⌉ * bestInterval K dataMin dataMax) := by
  refine ⟨bestInterval_mem K dataMin dataMax, ?_, bestInterval_eq_fallback K dataMin dataMax, rfl⟩
  rintro ⟨j, hj, hKj⟩
  cases hfind : niceIntervals.reverse.find? (fun i => decide (K ≤ countTicks i dataMin dataMax)) with
  | none =>
    exfalso
    have hnone := List.find?_eq_none.mp hfind j (List.mem_reverse.mpr hj)
    simp only [decide_eq_true_eq] at hnone
    exact hnone hKj
  | some y =>
    have hbest : bestInterval K dataMin dataMax = y := by
      unfold bestInterval
      rw [hfind]
    rcases find?_descending_max _ _ niceIntervals_reverse_sorted y hfind with ⟨hPy, _, hmax⟩
    simp only [decide_eq_true_eq] at hPy
    rw [hbest]
    refine ⟨hPy, ?_⟩
    intro j2 hj2 hK2
    exact hmax j2 (List.mem_reverse.mpr hj2) (by simpa using hK2)

theorem c2_yDomain_niceification_witness :
    (∃ j ∈ niceIntervals, (4 : ℤ) ≤ countTicks j (12/100) (34/100)) ∧
    ((4 : ℤ) ≤ countTicks (bestInterval 4 (12/100) (34/100)) (12/100) (34/100) ∧
     ∀ j ∈ niceIntervals, (4 : ℤ) ≤ countTicks j (12/100) (34/100) →
       j ≤ bestInterval 4 (12/100) (34/100)) := by
  have hex : ∃ j ∈ niceIntervals, (4 : ℤ) ≤ countTicks j (12/100) (34/100) :=
    ⟨1/10, by norm_num [niceIntervals],
      le_countTicks_of_bounds 4 1 4 (1/10) (12/100) (34/100)
        (by norm_num) (by norm_num) (by norm_num) (by norm_num)⟩
  exact ⟨hex, (c2_yDomain_niceification 4 (12/100) (34/100)).2.1 hex⟩

theorem niceEval_012_034 :
    bestInterval 4 (12/100) (34/100) = 1/10 ∧
    yDomainNice 4 (12/100) (34/100) = (1/10, 2/5) := by
  have hbest : bestInterval 4 (12/100) (34/100) = 1/10 := by
    apply bestInterval_eq_of_found
    · norm_num [niceIntervals]
    · exact le_countTicks_of_bounds 4 1 4 (1/10) (12/100) (34/100)
        (by norm_num) (by norm_num) (by norm_num) (by norm_num)
    · intro j hj hlt
      fin_cases hj
      · exact absurd hlt (by norm_num)
      · exact absurd hlt (by norm_num)
      · exact absurd hlt (by norm_num)
      · exact absurd hlt (by norm_num)
      · exact absurd hlt (by norm_num)
      · exact absurd hlt (by norm_num)
      · exact absurd hlt (by norm_num)
      · exact countTicks_lt_of_bounds 4 0 2 (2/10) (12/100) (34/100)
          (by norm_num) (by norm_num) (by norm_num) (by norm_num)
      · exact countTicks_lt_of_bounds 4 0 1 (5/10) (12/100) (34/100)
          (by norm_num) (by norm_num) (by norm_num) (by norm_num)
      · exact countTicks_lt_of_bounds 4 0 1 1 (12/100) (34/100)
          (by norm_num) (by norm_num) (by norm_num) (by norm_num)
      · exact countTicks_lt_of_bounds 4 0 1 2 (12/100) (34/100)
          (by norm_num) (by norm_num) (by norm_num) (by norm_num)
      · exact countTicks_lt_of_bounds 4 0 1 5 (12/100) (34/100)
          (by norm_num) (by norm_num) (by norm_num) (by norm_num)
      · exact countTicks_lt_of_bounds 4 0 1 10 (12/100) (34/100)
          (by norm_num) (by norm_num) (by norm_num) (by norm_num)
      · exact countTicks_lt_of_bounds 4 0 1 20 (12/100) (34/100)
          (by norm_num) (by norm_num) (by norm_num) (by norm_num)
      · exact countTicks_lt_of_bounds 4 0 1 50 (12/100) (34/100)
          (by norm_num) (by norm_num) (by norm_num) (by norm_num)
      · exact countTicks_lt_of_bounds 4 0 1 100 (12/100) (34/100)
          (by norm_num) (by norm_num) (by norm_num) (by norm_num)
      · exact countTicks_lt_of_bounds 4 0 1 200 (12/100) (34/100)
          (by norm_num) (by norm_num) (by norm_num) (by norm_num)
      · exact countTicks_lt_of_bounds 4 0 1 500 (12/100) (34/100)
          (by norm_num) (by norm_num) (by norm_num) (by norm_num)
      · exact countTicks_lt_of_bounds 4 0 1 1000 (12/100) (34/100)
          (by norm_num) (by norm_num) (by norm_num) (by norm_num)
  refine ⟨hbest, ?_⟩
  unfold yDomainNice
  rw [hbest]
  have h1 : ⌊(12/100 : ℚ) / (1/10)⌋ = 1 := by
    rw [Int.floor_eq_iff]
    norm_num
  have h2 : ⌈(34/100 : ℚ) / (1/10)⌉ = 4 := by
    rw [Int.ceil_eq_iff]
    norm_num
  rw [h1, h2]
  norm_num

/-- C3 counterexample: with `minimumTicks = 4` and data range `[0.12, 0.34]`
the code does NOT choose interval `0.05` with domain `[0.10, 0.35]` as the
spec example says: the descending scan already succeeds at `0.1`
(`countTicks(0.1, 0.12, 0.34) = ceil(3.4) - floor(1.2) + 1 = 4 ≥ 4`). -/
theorem c3_niceification_example_counterexample :
    ¬(bestInterval 4 (12/100) (34/100) = 5/100 ∧
      yDomainNice 4 (12/100) (34/100) = (1/10, 35/100)) := by
  rintro ⟨h1, _⟩
  rw [niceEval_012_034.1] at h1
  norm_num at h1

/-- C3 amended: with `minimumTicks = 4` and data range `[0.12, 0.34]` the
chosen interval is `0.1` and the final y-domain is `[0.1, 0.4]`. -/
theorem c3_niceification_example_amended :
    bestInterval 4 (12/100) (34/100) = 1/10 ∧
    yDomainNice 4 (12/100) (34/100) = (1/10, 2/5) := niceEval_012_034

/-- C8 counterexample: a degenerate extent `min = max = 1` is NOT expanded:
every candidate yields at most 2 ticks, the fallback interval `0.001`
divides `1` exactly, and the produced domain is the degenerate `[1, 1]`. -/
theorem c8_degenerate_span_counterexample :
    yDomainNice 4 1 1 = (1, 1) ∧ ¬ (yDomainNice 4 1 1).1 < (yDomainNice 4 1 1).2 := by
  have hall : ∀ j ∈ niceIntervals, countTicks j 1 1 < 4 := by
    intro j hj
    exact lt_of_le_of_lt
      (countTicks_degenerate j 1 (ne_of_gt (niceIntervals_pos j hj))) (by norm_num)
  have hbest := bestInterval_eq_fallback 4 1 1 hall
  have hdom : yDomainNice 4 1 1 = (1, 1) := by
    unfold yDomainNice
    rw [hbest]
    have hq : (1 : ℚ) / (1/1000) = ((1000 : ℤ) : ℚ) := by norm_num
    rw [hq, Int.floor_intCast, Int.ceil_intCast]
    norm_num
  refine ⟨hdom, ?_⟩
  rw [hdom]
  norm_num

/-- C8 amended: a degenerate extent `min = max = v` leads to the fallback
interval `0.001` and domain `[floor(1000 v)/1000, ceil(1000 v)/1000]`, which
is non-degenerate exactly when `1000 v` is not an integer; the code
substitutes no synthetic span when `1000 v` is an integer. -/
theorem c8_degenerate_span_amended (K : ℤ) (v : ℚ) (hK : 3 ≤ K)
    (hni : ∀ n : ℤ, (n : ℚ) ≠ 1000 * v) :
    (yDomainNice K v v).1 < (yDomainNice K v v).2 := by
  have hall : ∀ j ∈ niceIntervals, countTicks j v v < K := by
    intro j hj
    have h2 := countTicks_degenerate j v (ne_of_gt (niceIntervals_pos j hj))
    omega
  have hbest := bestInterval_eq_fallback K v v hall
  unfold yDomainNice
  rw [hbest]
  have hdiv : v / (1/1000) = 1000 * v := by ring
  rw [hdiv]
  have hfc : ⌊1000 * v⌋ < ⌈1000 * v⌉ := by
    rcases lt_or_eq_of_le (Int.floor_le_ceil (1000 * v)) with h | h
    · exact h
    · exfalso
      have h1 := Int.floor_le (1000 * v)
      have h2 := Int.le_ceil (1000 * v)
      rw [← h] at h2
      exact hni ⌊1000 * v⌋ (le_antisymm h1 h2)
  have hcast : ((⌊1000 * v⌋ : ℤ) : ℚ) < ((⌈1000 * v⌉ : ℤ) : ℚ) := by exact_mod_cast hfc
  exact mul_lt_mul_of_pos_right hcast (by norm_num)

theorem c8_degenerate_span_witness :
    ((3 : ℤ) ≤ 4) ∧
    (yDomainNice 4 (1/2000) (1/2000)).1 < (yDomainNice 4 (1/2000) (1/2000)).2 := by
  refine ⟨by norm_num, c8_degenerate_span_amended 4 (1/2000) (by norm_num) ?_⟩
  intro n h
  have h2 : ((2 * n : ℤ) : ℚ) = 1 := by
    push_cast
    rw [h]
    norm_num
  have h3 : (2 * n : ℤ) = 1 := by exact_mod_cast h2
  omega

/-- Formalization of the spec-side notion "the explicit domain already
satisfies the minimum-tick request": the number of integer multiples of
`interval` lying inside `[dataMin, dataMax]`.  (Spec-side definition, used
only to state C9; the code performs no such check.) -/
def ticksWithinDomain (interval dataMin dataMax : ℚ) : ℤ :=
  ⌊dataMax / interval⌋ - ⌈dataMin / interval⌉ + 1

/-- C9 counterexample: the explicit domain `[0.12, 0.34]` already admits 4
gridlines (multiples of the candidate `0.05`), yet the scale builder, whose
`shouldAdjustDomain` is hardcoded `true`, replaces it with `[0.1, 0.4]`. -/
theorem c9_explicit_domain_counterexample :
    (∃ i ∈ niceIntervals, (4 : ℤ) ≤ ticksWithinDomain i (12/100) (34/100)) ∧
    scalesYDomain 4 (some (12/100, 34/100)) (0, 0) ≠ (12/100, 34/100) := by
  constructor
  · refine ⟨5/100, by norm_num [niceIntervals], ?_⟩
    unfold ticksWithinDomain
    have h1 : ⌊(34/100 : ℚ) / (5/100)⌋ = 6 := by
      rw [Int.floor_eq_iff]
      norm_num
    have h2 : ⌈(12/100 : ℚ) / (5/100)⌉ = 3 := by
      rw [Int.ceil_eq_iff]
      norm_num
    rw [h1, h2]
    norm_num
  · have hs : scalesYDomain 4 (some (12/100, 34/100)) (0, 0) =
        yDomainNice 4 (12/100) (34/100) := rfl
    rw [hs, niceEval_012_034.2]
    intro h
    rw [Prod.mk.injEq] at h
    rcases h with ⟨h1, _⟩
    norm_num at h1

/-- C9 amended: niceification is applied unconditionally, also to explicit
caller-supplied domains; such a domain is returned unchanged precisely when
both endpoints are integer multiples of the selected interval. -/
theorem c9_explicit_domain_amended (K : ℤ) (m M : ℚ) (d : ℚ × ℚ) :
    scalesYDomain K (some (m, M)) d = (m, M) ↔
      (∃ a : ℤ, m = a * bestInterval K m M) ∧
      (∃ b : ℤ, M = b * bestInterval K m M) := by
  have hs : scalesYDomain K (some (m, M)) d = yDomainNice K m M := rfl
  rw [hs]
  unfold yDomainNice
  rw [Prod.mk.injEq]
  constructor
  · rintro ⟨h1, h2⟩
    exact ⟨⟨⌊m / bestInterval K m M⌋, h1.symm⟩, ⟨⌈M / bestInterval K m M⌉, h2.symm⟩⟩
  · rintro ⟨⟨a, ha⟩, ⟨b, hb⟩⟩
    have hi : bestInterval K m M ≠ 0 := ne_of_gt (bestInterval_pos K m M)
    set i := bestInterval K m M with hidef
    constructor
    · rw [ha, mul_div_cancel_right₀ _ hi, Int.floor_intCast]
    · rw [hb, mul_div_cancel_right₀ _ hi, Int.ceil_intCast]

theorem bestInterval_01_04 : bestInterval 4 (1/10) (2/5) = 1/10 := by
  apply bestInterval_eq_of_found
  · norm_num [niceIntervals]
  · exact le_countTicks_of_bounds 4 1 4 (1/10) (1/10) (2/5)
      (by norm_num) (by norm_num) (by norm_num) (by norm_num)
  · intro j hj hlt
    fin_cases hj
    · exact absurd hlt (by norm_num)
    · exact absurd hlt (by norm_num)
    · exact absurd hlt (by norm_num)
    · exact absurd hlt (by norm_num)
    · exact absurd hlt (by norm_num)
    · exact absurd hlt (by norm_num)
    · exact absurd hlt (by norm_num)
    · exact countTicks_lt_of_bounds 4 0 2 (2/10) (1/10) (2/5)
        (by norm_num) (by norm_num) (by norm_num) (by norm_num)
    · exact countTicks_lt_of_bounds 4 0 1 (5/10) (1/10) (2/5)
        (by norm_num) (by norm_num) (by norm_num) (by norm_num)
    · exact countTicks_lt_of_bounds 4 0 1 1 (1/10) (2/5)
        (by norm_num) (by norm_num) (by norm_num) (by norm_num)
    · exact countTicks_lt_of_bounds 4 0 1 2 (1/10) (2/5)
        (by norm_num) (by norm_num) (by norm_num) (by norm_num)
    · exact countTicks_lt_of_bounds 4 0 1 5 (1/10) (2/5)
        (by norm_num) (by norm_num) (by norm_num) (by norm_num)
    · exact countTicks_lt_of_bounds 4 0 1 10 (1/10) (2/5)
        (by norm_num) (by norm_num) (by norm_num) (by norm_num)
    · exact countTicks_lt_of_bounds 4 0 1 20 (1/10) (2/5)
        (by norm_num) (by norm_num) (by norm_num) (by norm_num)
    · exact countTicks_lt_of_bounds 4 0 1 50 (1/10) (2/5)
        (by norm_num) (by norm_num) (by norm_num) (by norm_num)
    · exact countTicks_lt_of_bounds 4 0 1 100 (1/10) (2/5)
        (by norm_num) (by norm_num) (by norm_num) (by norm_num)
    · exact countTicks_lt_of_bounds 4 0 1 200 (1/10) (2/5)
        (by norm_num) (by norm_num) (by norm_num) (by norm_num)
    · exact countTicks_lt_of_bounds 4 0 1 500 (1/10) (2/5)
        (by norm_num) (by norm_num) (by norm_num) (by norm_num)
    · exact countTicks_lt_of_bounds 4 0 1 1000 (1/10) (2/5)
        (by norm_num) (by norm_num) (by norm_num) (by norm_num)

theorem c9_explicit_domain_witness :
    ((∃ a : ℤ, (1/10 : ℚ) = a * bestInterval 4 (1/10) (2/5)) ∧
     (∃ b : ℤ, (2/5 : ℚ) = b * bestInterval 4 (1/10) (2/5))) ∧
    scalesYDomain 4 (some (1/10, 2/5)) (0, 0) = (1/10, 2/5) := by
  have hmul : (∃ a : ℤ, (1/10 : ℚ) = a * bestInterval 4 (1/10) (2/5)) ∧
      (∃ b : ℤ, (2/5 : ℚ) = b * bestInterval 4 (1/10) (2/5)) := by
    rw [bestInterval_01_04]
    exact ⟨⟨1, by norm_num⟩, ⟨4, by norm_num⟩⟩
  exact ⟨hmul, (c9_explicit_domain_amended 4 (1/10) (2/5) (0, 0)).mpr hmul⟩


/-! ## Hover-sample resolver: correctness of the closest-point search -/

theorem closestPoint_spec (t : ℚ) (p : DataPoint) (ps : List DataPoint) :
    closestPoint t p ps ∈ p :: ps ∧
    (∀ q ∈ p :: ps, |(closestPoint t p ps).x - t| ≤ |q.x - t|) ∧
    ∃ l₁ l₂, p :: ps = l₁ ++ closestPoint t p ps :: l₂ ∧
      ∀ q ∈ l₁, |(closestPoint t p ps).x - t| < |q.x - t| := by
  refine ⟨findClosest_mem t ps p, ?_, ?_⟩
  · intro q hq
    rcases findClosest_spec t ps p with ⟨heq, hall⟩ | ⟨l₁, l₂, hsplit, hlt, hleft, hright⟩
    · have hcp : closestPoint t p ps = p := heq
      rw [hcp]
      rcases List.mem_cons.mp hq with rfl | hq'
      · exact le_refl _
      · exact hall q hq'
    · rcases List.mem_cons.mp hq with rfl | hq'
      · exact le_of_lt hlt
      · rw [hsplit] at hq'
        rcases List.mem_append.mp hq' with hin | hin
        · exact le_of_lt (hleft q hin)
        · rcases List.mem_cons.mp hin with heqq | hin'
          · subst heqq
            exact le_refl _
          · exact hright q hin'
  · rcases findClosest_spec t ps p with ⟨heq, _⟩ | ⟨l₁, l₂, hsplit, hlt, hleft, _⟩
    · refine ⟨[], ps, ?_, ?_⟩
      · have hcp : closestPoint t p ps = p := heq
        rw [List.nil_append, hcp]
      · intro q hq
        exact absurd hq (List.not_mem_nil q)
    · refine ⟨p :: l₁, l₂, ?_, fun q hq => ?_⟩
      · rw [List.cons_append]
        exact congrArg (List.cons p) hsplit
      · rcases List.mem_cons.mp hq with rfl | hq'
        · exact hlt
        · exact hleft q hq'

/-- C1: for every non-empty series and every in-bounds pointer pixel `X`,
the hover sample resolved for the series is the data point whose timestamp
minimizes `|t - invertX(X)|` over the series, ties broken by the
earliest-occurring point. -/
theorem c1_hover_sample_nearest (xsc ysc : LinearScale)
    (line : LineSeriesConfig) (X : ℚ)
    (hX : xsc.r0 ≤ X ∧ X ≤ xsc.r1)
    (p : DataPoint) (ps : List DataPoint) (hdata : line.data = p :: ps) :
    ∃ tp : TooltipState,
      resolveSeries xsc ysc (xsc.invert X) line = some tp ∧
      tp.datum ∈ line.data ∧
      (∀ q ∈ line.data, |tp.datum.x - xsc.invert X| ≤ |q.x - xsc.invert X|) ∧
      ∃ l₁ l₂, line.data = l₁ ++ tp.datum :: l₂ ∧
        ∀ q ∈ l₁, |tp.datum.x - xsc.invert X| < |q.x - xsc.invert X| := by
  obtain ⟨hmem, hmin, l₁, l₂, hsp, hstrict⟩ := closestPoint_spec (xsc.invert X) p ps
  refine ⟨⟨xsc.toPixel (closestPoint (xsc.invert X) p ps).x,
           ysc.toPixel (closestPoint (xsc.invert X) p ps).y,
           closestPoint (xsc.invert X) p ps, line⟩, ?_, ?_, ?_, ?_⟩
  · unfold resolveSeries
    rw [hdata]
  · rw [hdata]
    exact hmem
  · rw [hdata]
    intro q hq
    exact hmin q hq
  · rw [hdata]
    exact ⟨l₁, l₂, hsp, hstrict⟩

/-- One line with two data points, used as a concrete witness input. -/
def demoLine : LineSeriesConfig := ⟨"demo", [⟨10, 1⟩, ⟨20, 2⟩]⟩

theorem c1_hover_sample_nearest_witness :
    (((⟨0, 100, 0, 200⟩ : LinearScale).r0 ≤ 50 ∧
      (50 : ℚ) ≤ (⟨0, 100, 0, 200⟩ : LinearScale).r1) ∧
     demoLine.data = ⟨10, 1⟩ :: [⟨20, 2⟩]) ∧
    ∃ tp : TooltipState,
      resolveSeries ⟨0, 100, 0, 200⟩ ⟨0, 1, 0, 1⟩
        ((⟨0, 100, 0, 200⟩ : LinearScale).invert 50) demoLine = some tp ∧
      tp.datum ∈ demoLine.data ∧
      (∀ q ∈ demoLine.data,
        |tp.datum.x - (⟨0, 100, 0, 200⟩ : LinearScale).invert 50| ≤
        |q.x - (⟨0, 100, 0, 200⟩ : LinearScale).invert 50|) ∧
      ∃ l₁ l₂, demoLine.data = l₁ ++ tp.datum :: l₂ ∧
        ∀ q ∈ l₁,
          |tp.datum.x - (⟨0, 100, 0, 200⟩ : LinearScale).invert 50| <
          |q.x - (⟨0, 100, 0, 200⟩ : LinearScale).invert 50| :=
  ⟨⟨⟨by norm_num, by norm_num⟩, rfl⟩,
    c1_hover_sample_nearest ⟨0, 100, 0, 200⟩ ⟨0, 1, 0, 1⟩ demoLine 50
      ⟨by norm_num, by norm_num⟩ ⟨10, 1⟩ [⟨20, 2⟩] rfl⟩

/-! ## Zero-label dedup -/

theorem filterZero_cons (seen : Bool) (tp : TooltipState) (tps : List TooltipState) :
    filterZeroTooltips seen (tp :: tps) =
      if isDisplayZero tp.datum.y then
        (if seen then filterZeroTooltips true tps else tp :: filterZeroTooltips true tps)
      else tp :: filterZeroTooltips seen tps := rfl

theorem isDisplayZero_of (y : ℚ) (h0 : 0 ≤ y) (h1 : y < 1/200) :
    isDisplayZero y = true := by
  unfold isDisplayZero
  have hf : ⌊100 * y + 1/2⌋ = 0 := by
    rw [Int.floor_eq_iff]
    push_cast
    constructor <;> linarith
  rw [hf, Bool.and_eq_true]
  exact ⟨decide_eq_true h0, by rfl⟩

theorem isDisplayZero_false_of_ge (y : ℚ) (h : 1/200 ≤ y) :
    isDisplayZero y = false := by
  unfold isDisplayZero
  have hf : (1 : ℤ) ≤ ⌊100 * y + 1/2⌋ := by
    apply Int.le_floor.mpr
    push_cast
    linarith
  have hne : ⌊100 * y + 1/2⌋ ≠ 0 := by omega
  rw [decide_eq_false hne, Bool.and_false]

theorem filterZero_seen_dropped :
    ∀ ts : List TooltipState,
      (filterZeroTooltips true ts).filter (fun tp => isDisplayZero tp.datum.y) = [] := by
  intro ts
  induction ts with
  | nil => rfl
  | cons tp tps ih =>
    rw [filterZero_cons]
    by_cases hz : isDisplayZero tp.datum.y = true
    · rw [if_pos hz, if_pos rfl]
      exact ih
    · rw [if_neg hz, List.filter_cons, if_neg hz]
      exact ih

theorem filterZero_kept_zero :
    ∀ ts : List TooltipState,
      (filterZeroTooltips false ts).filter (fun tp => isDisplayZero tp.datum.y) =
        (ts.find? (fun tp => isDisplayZero tp.datum.y)).toList := by
  intro ts
  induction ts with
  | nil => rfl
  | cons tp tps ih =>
    rw [filterZero_cons]
    by_cases hz : isDisplayZero tp.datum.y = true
    · rw [if_pos hz, if_neg Bool.false_ne_true, List.filter_cons, if_pos hz,
        filterZero_seen_dropped tps,
        @List.find?_cons_of_pos _ (fun tp => isDisplayZero tp.datum.y) tp tps hz]
      rfl
    · rw [if_neg hz, List.filter_cons, if_neg hz,
        @List.find?_cons_of_neg _ (fun tp => isDisplayZero tp.datum.y) tp tps hz]
      exact ih

theorem filterZero_keeps_nonzero :
    ∀ (seen : Bool) (ts : List TooltipState),
      (filterZeroTooltips seen ts).filter (fun tp => !isDisplayZero tp.datum.y) =
        ts.filter (fun tp => !isDisplayZero tp.datum.y) := by
  intro seen ts
  induction ts generalizing seen with
  | nil => rfl
  | cons tp tps ih =>
    rw [filterZero_cons]
    by_cases hz : isDisplayZero tp.datum.y = true
    · have hnz : (!isDisplayZero tp.datum.y) = false := by
        rw [hz]
        rfl
      cases seen with
      | true =>
        rw [if_pos hz, if_pos rfl, List.filter_cons, hnz, if_neg Bool.false_ne_true]
        exact ih true
      | false =>
        rw [if_pos hz, if_neg Bool.false_ne_true, List.filter_cons, hnz,
          if_neg Bool.false_ne_true, List.filter_cons, hnz, if_neg Bool.false_ne_true]
        exact ih true
    · have hnz : (!isDisplayZero tp.datum.y) = true := by
        rw [Bool.not_eq_true] at hz
        rw [hz]
        rfl
      rw [if_neg hz, List.filter_cons, hnz, if_pos rfl, List.filter_cons, hnz, if_pos rfl,
        ih seen]

theorem filterZero_true_allzero :
    ∀ ts : List TooltipState, (∀ tp ∈ ts, isDisplayZero tp.datum.y = true) →
      filterZeroTooltips true ts = [] := by
  intro ts
  induction ts with
  | nil => intro _; rfl
  | cons tp tps ih =>
    intro hall
    rw [filterZero_cons, if_pos (hall tp (List.mem_cons_self tp tps)), if_pos rfl]
    exact ih fun q hq => hall q (List.mem_cons_of_mem tp hq)

/-- C7: dedup of zero labels: the tooltips kept whose formatted value is
`"0.00"` are exactly the first such tooltip (if any); tooltips whose value
does not format as `"0.00"` are all kept; three all-zero series produce
exactly one tooltip for that pointer position. -/
theorem c7_zero_dedup (ts : List TooltipState) :
    ((filterZeroTooltips false ts).filter (fun tp => isDisplayZero tp.datum.y) =
      (ts.find? (fun tp => isDisplayZero tp.datum.y)).toList) ∧
    ((filterZeroTooltips false ts).filter (fun tp => !isDisplayZero tp.datum.y) =
      ts.filter (fun tp => !isDisplayZero tp.datum.y)) ∧
    (ts.length = 3 → (∀ tp ∈ ts, isDisplayZero tp.datum.y = true) →
      (filterZeroTooltips false ts).length = 1) := by
  refine ⟨filterZero_kept_zero ts, filterZero_keeps_nonzero false ts, ?_⟩
  intro hlen hall
  cases ts with
  | nil => simp at hlen
  | cons tp tps =>
    rw [filterZero_cons, if_pos (hall tp (List.mem_cons_self tp tps)),
      if_neg Bool.false_ne_true,
      filterZero_true_allzero tps fun q hq => hall q (List.mem_cons_of_mem tp hq)]
    rfl

/-- Three tooltips whose values all format as `"0.00"`. -/
def demoZeroTooltips : List TooltipState :=
  [⟨0, 0, ⟨0, 0⟩, demoLine⟩, ⟨0, 0, ⟨1, 1/250⟩, demoLine⟩, ⟨0, 0, ⟨2, 1/1000⟩, demoLine⟩]

theorem c7_zero_dedup_witness :
    (demoZeroTooltips.length = 3 ∧
     (∀ tp ∈ demoZeroTooltips, isDisplayZero tp.datum.y = true)) ∧
    (filterZeroTooltips false demoZeroTooltips).length = 1 := by
  have hall : ∀ tp ∈ demoZeroTooltips, isDisplayZero tp.datum.y = true := by
    intro tp htp
    fin_cases htp
    · exact isDisplayZero_of 0 (by norm_num) (by norm_num)
    · exact isDisplayZero_of (1/250) (by norm_num) (by norm_num)
    · exact isDisplayZero_of (1/1000) (by norm_num) (by norm_num)
  exact ⟨⟨rfl, hall⟩, (c7_zero_dedup demoZeroTooltips).2.2 rfl hall⟩

/-! ## Published x position (vertical guide line and date label anchor) -/

theorem filterZero_sublist :
    ∀ (seen : Bool) (ts : List TooltipState), (filterZeroTooltips seen ts).Sublist ts := by
  intro seen ts
  induction ts generalizing seen with
  | nil => exact List.Sublist.refl []
  | cons tp tps ih =>
    rw [filterZero_cons]
    by_cases hz : isDisplayZero tp.datum.y = true
    · cases seen with
      | true =>
        rw [if_pos hz, if_pos rfl]
        exact List.Sublist.cons tp (ih true)
      | false =>
        rw [if_pos hz, if_neg Bool.false_ne_true]
        exact List.Sublist.cons₂ tp (ih true)
    · rw [if_neg hz]
      exact List.Sublist.cons₂ tp (ih seen)

/-- C10: the published x position (the anchor of the vertical guide line
and the date label in the hover render) equals the screen x of the first
retained tooltip — a data-point position mapped through the x scale — and
falls back to the raw pointer pixel only when no tooltip is retained. -/
theorem c10_aligned_x_position (xsc ysc : LinearScale)
    (series : List LineSeriesConfig) (targetX : ℚ) :
    ((processCalculationQueue xsc ysc series targetX).tooltips = [] →
      (processCalculationQueue xsc ysc series targetX).xPosition = targetX) ∧
    (∀ tp tps, (processCalculationQueue xsc ysc series targetX).tooltips = tp :: tps →
      (processCalculationQueue xsc ysc series targetX).xPosition = tp.x ∧
      ∃ line ∈ series, tp.datum ∈ line.data ∧ tp.x = xsc.toPixel tp.datum.x) := by
  constructor
  · intro hnil
    have hnil2 : filterZeroTooltips false
        (series.filterMap (resolveSeries xsc ysc (xsc.invert targetX))) = [] := hnil
    show (match filterZeroTooltips false
        (series.filterMap (resolveSeries xsc ysc (xsc.invert targetX))) with
      | [] => targetX
      | tp :: _ => tp.x) = targetX
    rw [hnil2]
  · intro tp tps heq
    have heq2 : filterZeroTooltips false
        (series.filterMap (resolveSeries xsc ysc (xsc.invert targetX))) = tp :: tps := heq
    constructor
    · show (match filterZeroTooltips false
          (series.filterMap (resolveSeries xsc ysc (xsc.invert targetX))) with
        | [] => targetX
        | tp :: _ => tp.x) = tp.x
      rw [heq2]
    · have htp : tp ∈ filterZeroTooltips false
          (series.filterMap (resolveSeries xsc ysc (xsc.invert targetX))) := by
        rw [heq2]
        exact List.mem_cons_self tp tps
      have hmem : tp ∈ series.filterMap (resolveSeries xsc ysc (xsc.invert targetX)) :=
        (filterZero_sublist false _).subset htp
      rcases List.mem_filterMap.mp hmem with ⟨line, hline, hres⟩
      cases hdata : line.data with
      | nil =>
        unfold resolveSeries at hres
        rw [hdata] at hres
        exact Option.noConfusion hres
      | cons p ps =>
        unfold resolveSeries at hres
        rw [hdata] at hres
        have hres2 : (some ⟨xsc.toPixel (closestPoint (xsc.invert targetX) p ps).x,
            ysc.toPixel (closestPoint (xsc.invert targetX) p ps).y,
            closestPoint (xsc.invert targetX) p ps, line⟩ : Option TooltipState) = some tp := hres
        rw [Option.some.injEq] at hres2
        refine ⟨line, hline, ?_, ?_⟩
        · rw [← hres2, hdata]
          exact findClosest_mem (xsc.invert targetX) ps p
        · rw [← hres2]

/-- A single-point series used as a concrete witness input. -/
def demoLine1 : LineSeriesConfig := ⟨"one", [⟨10, 1⟩]⟩

theorem c10_aligned_x_position_witness :
    ((processCalculationQueue ⟨0, 100, 0, 200⟩ ⟨0, 1, 0, 1⟩ [demoLine1] 50).tooltips =
      (⟨(⟨0, 100, 0, 200⟩ : LinearScale).toPixel 10,
        (⟨0, 1, 0, 1⟩ : LinearScale).toPixel 1, ⟨10, 1⟩, demoLine1⟩ : TooltipState) :: []) ∧
    ((processCalculationQueue ⟨0, 100, 0, 200⟩ ⟨0, 1, 0, 1⟩ [demoLine1] 50).xPosition =
      (⟨(⟨0, 100, 0, 200⟩ : LinearScale).toPixel 10,
        (⟨0, 1, 0, 1⟩ : LinearScale).toPixel 1, ⟨10, 1⟩, demoLine1⟩ : TooltipState).x ∧
     ∃ line ∈ [demoLine1],
       (⟨(⟨0, 100, 0, 200⟩ : LinearScale).toPixel 10,
         (⟨0, 1, 0, 1⟩ : LinearScale).toPixel 1, ⟨10, 1⟩, demoLine1⟩ : TooltipState).datum ∈
           line.data ∧
       (⟨(⟨0, 100, 0, 200⟩ : LinearScale).toPixel 10,
         (⟨0, 1, 0, 1⟩ : LinearScale).toPixel 1, ⟨10, 1⟩, demoLine1⟩ : TooltipState).x =
         (⟨0, 100, 0, 200⟩ : LinearScale).toPixel
           (⟨(⟨0, 100, 0, 200⟩ : LinearScale).toPixel 10,
             (⟨0, 1, 0, 1⟩ : LinearScale).toPixel 1, ⟨10, 1⟩,
             demoLine1⟩ : TooltipState).datum.x) := by
  have hstep : [demoLine1].filterMap
      (resolveSeries ⟨0, 100, 0, 200⟩ ⟨0, 1, 0, 1⟩
        ((⟨0, 100, 0, 200⟩ : LinearScale).invert 50)) =
      [⟨(⟨0, 100, 0, 200⟩ : LinearScale).toPixel 10,
        (⟨0, 1, 0, 1⟩ : LinearScale).toPixel 1, ⟨10, 1⟩, demoLine1⟩] := rfl
  have hcond : ¬(isDisplayZero
      (⟨(⟨0, 100, 0, 200⟩ : LinearScale).toPixel 10,
        (⟨0, 1, 0, 1⟩ : LinearScale).toPixel 1, ⟨10, 1⟩,
        demoLine1⟩ : TooltipState).datum.y = true) := by
    have hy : (⟨(⟨0, 100, 0, 200⟩ : LinearScale).toPixel 10,
        (⟨0, 1, 0, 1⟩ : LinearScale).toPixel 1, ⟨10, 1⟩,
        demoLine1⟩ : TooltipState).datum.y = (1 : ℚ) := rfl
    rw [hy, isDisplayZero_false_of_ge 1 (by norm_num)]
    exact Bool.false_ne_true
  have heq : (processCalculationQueue ⟨0, 100, 0, 200⟩ ⟨0, 1, 0, 1⟩ [demoLine1] 50).tooltips =
      (⟨(⟨0, 100, 0, 200⟩ : LinearScale).toPixel 10,
        (⟨0, 1, 0, 1⟩ : LinearScale).toPixel 1, ⟨10, 1⟩, demoLine1⟩ : TooltipState) :: [] := by
    show filterZeroTooltips false
        ([demoLine1].filterMap (resolveSeries ⟨0, 100, 0, 200⟩ ⟨0, 1, 0, 1⟩
          ((⟨0, 100, 0, 200⟩ : LinearScale).invert 50))) = _
    rw [hstep, filterZero_cons, if_neg hcond]
    rfl
  exact ⟨heq,
    (c10_aligned_x_position ⟨0, 100, 0, 200⟩ ⟨0, 1, 0, 1⟩ [demoLine1] 50).2 _ _ heq⟩

/-! ## Hover session controller: pointer leave -/

/-- The mutable state of one chart instance: the coalescing queue
(`calculationQueueRef`), the draining flag (`isProcessingRef`) and the
published hover state. -/
structure ChartInteractionState where
  calculationQueue : List (ℚ × ℚ)
  isProcessing : Bool
  hoverState : Option HoverState
deriving DecidableEq

/-- The `onMouseLeave` handler: clear the queue, reset the flag, publish no
hover state. -/
def onMouseLeave (_s : ChartInteractionState) : ChartInteractionState :=
  { calculationQueue := [], isProcessing := false, hoverState := none }

/-- One `processNext` invocation: if the queue is empty, stop draining;
otherwise pop the most recent item, process it (publishing a fresh hover
state), and keep the draining flag set only if items remain. -/
def processNextStep (xsc ysc : LinearScale) (series : List LineSeriesConfig)
    (s : ChartInteractionState) : ChartInteractionState :=
  match s.calculationQueue.getLast? with
  | none => { s with isProcessing := false }
  | some item =>
    { calculationQueue := s.calculationQueue.dropLast,
      isProcessing := !s.calculationQueue.dropLast.isEmpty,
      hoverState := some (processCalculationQueue xsc ysc series item.1) }

/-- C5: a pointer-leave event empties the queue and the published
annotation state in a single step, and every subsequently scheduled
`processNext` continuation is a no-op, so no position queued before the
leave is ever processed until a new pointer-move pushes again. -/
theorem c5_pointer_leave_clears (s : ChartInteractionState)
    (xsc ysc : LinearScale) (series : List LineSeriesConfig) :
    (onMouseLeave s).calculationQueue = [] ∧
    (onMouseLeave s).hoverState = none ∧
    (onMouseLeave s).isProcessing = false ∧
    ∀ n : ℕ, (processNextStep xsc ysc series)^[n] (onMouseLeave s) = onMouseLeave s := by
  refine ⟨rfl, rfl, rfl, ?_⟩
  intro n
  exact Function.iterate_fixed rfl n

/-! ## Tooltip stacking -/

def tooltipHeight : ℚ := 24

def gap : ℚ := 2

/-- The `repositionedTooltips` map over the sorted tooltips: walking with a
`lastBottom` accumulator (initially the chart height), each tooltip gets
`newTop = max(margin.top, min(y - tooltipHeight/2, lastBottom - tooltipHeight - gap))`
and is emitted with its anchor `adjustedY = newTop + tooltipHeight/2`. -/
def stackTooltips (marginTop : ℚ) : ℚ → List TooltipState → List (TooltipState × ℚ)
  | _, [] => []
  | lastBottom, tp :: tps =>
    (tp, max marginTop (min (tp.y - tooltipHeight / 2) (lastBottom - tooltipHeight - gap)) +
        tooltipHeight / 2) ::
      stackTooltips marginTop
        (max marginTop (min (tp.y - tooltipHeight / 2) (lastBottom - tooltipHeight - gap))) tps

/-- `[...hoverState.tooltips].sort((a, b) => b.y - a.y)`: a stable
descending sort on the natural screen y. -/
def sortTooltipsByYDesc (ts : List TooltipState) : List TooltipState :=
  List.insertionSort (fun a b => b.y ≤ a.y) ts

/-- The full stacking pass of the hover render. -/
def repositionedTooltips (height marginTop : ℚ) (ts : List TooltipState) :
    List (TooltipState × ℚ) :=
  stackTooltips marginTop height (sortTooltipsByYDesc ts)

theorem stackTooltips_cons (marginTop lastBottom : ℚ) (tp : TooltipState)
    (tps : List TooltipState) :
    stackTooltips marginTop lastBottom (tp :: tps) =
      (tp, max marginTop (min (tp.y - tooltipHeight / 2) (lastBottom - tooltipHeight - gap)) +
          tooltipHeight / 2) ::
        stackTooltips marginTop
          (max marginTop (min (tp.y - tooltipHeight / 2) (lastBottom - tooltipHeight - gap)))
          tps := rfl

theorem stackTooltips_top_ge (marginTop : ℚ) :
    ∀ (l : List TooltipState) (lastBottom : ℚ),
      ∀ e ∈ stackTooltips marginTop lastBottom l, marginTop ≤ e.2 - tooltipHeight / 2 := by
  intro l
  induction l with
  | nil =>
    intro lb e he
    exact absurd he (List.not_mem_nil e)
  | cons tp tps ih =>
    intro lb e he
    rw [stackTooltips_cons] at he
    rcases List.mem_cons.mp he with rfl | he'
    · show marginTop ≤
        max marginTop (min (tp.y - tooltipHeight / 2) (lb - tooltipHeight - gap)) +
          tooltipHeight / 2 - tooltipHeight / 2
      have h := le_max_left marginTop (min (tp.y - tooltipHeight / 2) (lb - tooltipHeight - gap))
      linarith
    · exact ih _ e he'

/-- A tooltip with a given natural screen y, used in concrete stacking
inputs. -/
def demoT (y : ℚ) : TooltipState := ⟨0, y, ⟨0, y⟩, demoLine⟩

/-- C6 counterexample: three samples at natural y 102, 101, 100 (all pairs
differ by less than 26) stack to anchors 102, 76, 50: the outer pair
differs by 52, not 26, refuting "any two samples whose natural Y differ by
less than 26px are repositioned to differ by exactly 26px". -/
theorem c6_stacking_counterexample :
    repositionedTooltips 270 35 [demoT 102, demoT 101, demoT 100] =
      [(demoT 102, 102), (demoT 101, 76), (demoT 100, 50)] ∧
    |(demoT 102).y - (demoT 100).y| < tooltipHeight + gap ∧
    ¬ |(102 : ℚ) - 50| = tooltipHeight + gap := by
  refine ⟨?_, ?_, ?_⟩
  · have hsort : sortTooltipsByYDesc [demoT 102, demoT 101, demoT 100] =
        [demoT 102, demoT 101, demoT 100] := by
      unfold sortTooltipsByYDesc
      norm_num [List.insertionSort, List.orderedInsert, demoT]
    unfold repositionedTooltips
    rw [hsort, stackTooltips_cons, stackTooltips_cons, stackTooltips_cons]
    norm_num [demoT, tooltipHeight, gap, min_def, max_def]
    rfl
  · norm_num [demoT, tooltipHeight, gap]
  · norm_num [tooltipHeight, gap]

/-- C6 amended: no tooltip top ever rises above the top margin, and two
CONSECUTIVE samples in the bottom-up stacking order whose natural y differ
by less than `tooltipHeight + gap = 26`, and whose slots are not clamped by
the top margin, get anchors exactly 26 apart.  (Non-adjacent pairs, and
pairs clamped at the top margin, can differ by other amounts.) -/
theorem c6_stacking_amended :
    (∀ (height marginTop : ℚ) (ts : List TooltipState),
      ∀ e ∈ repositionedTooltips height marginTop ts,
        marginTop ≤ e.2 - tooltipHeight / 2) ∧
    (∀ (marginTop lastBottom : ℚ) (t1 t2 : TooltipState) (rest : List TooltipState),
      |t1.y - t2.y| < tooltipHeight + gap →
      marginTop + (tooltipHeight + gap) ≤
        min (t1.y - tooltipHeight / 2) (lastBottom - tooltipHeight - gap) →
      ∃ a1 a2 l, stackTooltips marginTop lastBottom (t1 :: t2 :: rest) =
        (t1, a1) :: (t2, a2) :: l ∧ a1 - a2 = tooltipHeight + gap) := by
  constructor
  · intro h m ts e he
    exact stackTooltips_top_ge m (sortTooltipsByYDesc ts) h e he
  · intro m lb t1 t2 rest hclose hns
    refine ⟨_, _, _, rfl, ?_⟩
    have hpos : (0 : ℚ) < tooltipHeight + gap := by norm_num [tooltipHeight, gap]
    have hA : m ≤ min (t1.y - tooltipHeight / 2) (lb - tooltipHeight - gap) := by linarith
    rw [max_eq_right hA]
    have habs := abs_lt.mp hclose
    have hminA : min (t1.y - tooltipHeight / 2) (lb - tooltipHeight - gap) ≤
        t1.y - tooltipHeight / 2 := min_le_left _ _
    have h2 : min (t1.y - tooltipHeight / 2) (lb - tooltipHeight - gap) -
        tooltipHeight - gap ≤ t2.y - tooltipHeight / 2 := by linarith
    rw [min_eq_right h2]
    have h3 : m ≤ min (t1.y - tooltipHeight / 2) (lb - tooltipHeight - gap) -
        tooltipHeight - gap := by linarith
    rw [max_eq_right h3]
    ring

theorem c6_stacking_amended_witness :
    (|(demoT 102).y - (demoT 101).y| < tooltipHeight + gap ∧
     (35 : ℚ) + (tooltipHeight + gap) ≤
       min ((demoT 102).y - tooltipHeight / 2) (270 - tooltipHeight - gap)) ∧
    ∃ a1 a2 l, stackTooltips 35 270 (demoT 102 :: demoT 101 :: []) =
      (demoT 102, a1) :: (demoT 101, a2) :: l ∧ a1 - a2 = tooltipHeight + gap := by
  have h1 : |(demoT 102).y - (demoT 101).y| < tooltipHeight + gap := by
    norm_num [demoT, tooltipHeight, gap]
  have h2 : (35 : ℚ) + (tooltipHeight + gap) ≤
      min ((demoT 102).y - tooltipHeight / 2) (270 - tooltipHeight - gap) := by
    apply le_min
    · norm_num [demoT, tooltipHeight, gap]
    · norm_num [tooltipHeight, gap]
  exact ⟨⟨h1, h2⟩, c6_stacking_amended.2 35 270 (demoT 102) (demoT 101) [] h1 h2⟩

/-! ## Pointer event coalescer -/

def pruneThreshold : ℕ := 5

def quantiles : ℕ := 4

/-- The queue-thinning step of `handlePointerMove`.  The JS loop
`for (let i = step - 1; i < queue.length; i += step)` with
`step = Math.floor(queue.length / quantiles)` visits exactly the indices
`i < queue.length` with `(i + 1) % step = 0` (the loop is only reached with
`step ≥ 1`); afterwards the last queue item is pushed when the loop did not
already pick it — the code compares object identity, which for the distinct
objects held by the queue is index equality, i.e. whether the last visited
index is `queue.length - 1`. -/
def thinQueue (q : List (ℚ × ℚ)) : List (ℚ × ℚ) :=
  if ((List.range q.length).filter
      (fun i => (i + 1) % (q.length / quantiles) = 0)).getLast? = some (q.length - 1) then
    ((List.range q.length).filter
      (fun i => (i + 1) % (q.length / quantiles) = 0)).filterMap (fun i => q[i]?)
  else
    ((List.range q.length).filter
      (fun i => (i + 1) % (q.length / quantiles) = 0)).filterMap (fun i => q[i]?) ++
      q.getLast?.toList

/-- One `handlePointerMove` enqueue: push the event, then thin the queue if
it exceeds `pruneThreshold`. -/
def pushEvent (q : List (ℚ × ℚ)) (e : ℚ × ℚ) : List (ℚ × ℚ) :=
  if pruneThreshold < (q ++ [e]).length then thinQueue (q ++ [e]) else q ++ [e]

/-- The order in which `processNext` dequeues a queue left undisturbed:
it pops the LAST (most recent) element each step until empty. -/
def drainQueue (q : List (ℚ × ℚ)) : List (ℚ × ℚ) := q.reverse

/-- Length of `thinQueue` on a queue of length `L` (the thinning is
value-independent). -/
def thinLen (L : ℕ) : ℕ :=
  if ((List.range L).filter (fun i => (i + 1) % (L / quantiles) = 0)).getLast? =
      some (L - 1) then
    ((List.range L).filter (fun i => (i + 1) % (L / quantiles) = 0)).length
  else
    ((List.range L).filter (fun i => (i + 1) % (L / quantiles) = 0)).length + 1

def pushLen (L : ℕ) : ℕ :=
  if pruneThreshold < L + 1 then thinLen (L + 1) else L + 1

def lenAfterPushes : ℕ → ℕ → ℕ
  | 0, L => L
  | n + 1, L => lenAfterPushes n (pushLen L)

theorem filterMap_getElem_length (q : List (ℚ × ℚ)) :
    ∀ idxs : List ℕ, (∀ i ∈ idxs, i < q.length) →
      (idxs.filterMap (fun i => q[i]?)).length = idxs.length := by
  intro idxs
  induction idxs with
  | nil => intro _; rfl
  | cons i rest ih =>
    intro hall
    have hi : i < q.length := hall i (List.mem_cons_self i rest)
    rw [List.filterMap_cons, List.getElem?_eq_getElem hi]
    show (q[i] :: rest.filterMap (fun j => q[j]?)).length = rest.length + 1
    rw [List.length_cons, ih fun j hj => hall j (List.mem_cons_of_mem i hj)]

theorem filterMap_getElem_getLast? (q : List (ℚ × ℚ)) :
    ∀ idxs : List ℕ, (∀ i ∈ idxs, i < q.length) →
      (idxs.filterMap (fun i => q[i]?)).getLast? = idxs.getLast?.bind (fun i => q[i]?) := by
  intro idxs
  induction idxs with
  | nil => intro _; rfl
  | cons i rest ih =>
    intro hall
    have hi : i < q.length := hall i (List.mem_cons_self i rest)
    cases rest with
    | nil =>
      show ((i :: []).filterMap (fun j => q[j]?)).getLast? = _
      rw [List.filterMap_cons, List.getElem?_eq_getElem hi]
      exact (List.getElem?_eq_getElem hi).symm
    | cons j rest2 =>
      have hj : j < q.length :=
        hall j (List.mem_cons_of_mem i (List.mem_cons_self j rest2))
      have hX : (j :: rest2).filterMap (fun k => q[k]?) =
          q[j] :: rest2.filterMap (fun k => q[k]?) := by
        rw [List.filterMap_cons, List.getElem?_eq_getElem hj]
      rw [List.filterMap_cons, List.getElem?_eq_getElem hi]
      show (q[i] :: (j :: rest2).filterMap (fun k => q[k]?)).getLast? =
        ((i :: j :: rest2).getLast?).bind (fun k => q[k]?)
      rw [List.getLast?_cons_cons, hX, List.getLast?_cons_cons, ← hX]
      exact ih fun k hk => hall k (List.mem_cons_of_mem i hk)

theorem thinQueue_length (q : List (ℚ × ℚ)) (hne : q ≠ []) :
    (thinQueue q).length = thinLen q.length := by
  unfold thinQueue thinLen
  have hall : ∀ i ∈ (List.range q.length).filter
      (fun i => (i + 1) % (q.length / quantiles) = 0), i < q.length :=
    fun i hi => List.mem_range.mp (List.mem_filter.mp hi).1
  by_cases hlast : ((List.range q.length).filter
      (fun i => (i + 1) % (q.length / quantiles) = 0)).getLast? = some (q.length - 1)
  · rw [if_pos hlast, if_pos hlast]
    exact filterMap_getElem_length q _ hall
  · rw [if_neg hlast, if_neg hlast, List.length_append, filterMap_getElem_length q _ hall]
    obtain ⟨x, hx⟩ := Option.isSome_iff_exists.mp (List.getLast?_isSome.mpr hne)
    rw [hx]
    rfl

theorem thinQueue_getLast? (q : List (ℚ × ℚ)) (hne : q ≠ []) :
    (thinQueue q).getLast? = q.getLast? := by
  unfold thinQueue
  have hall : ∀ i ∈ (List.range q.length).filter
      (fun i => (i + 1) % (q.length / quantiles) = 0), i < q.length :=
    fun i hi => List.mem_range.mp (List.mem_filter.mp hi).1
  by_cases hlast : ((List.range q.length).filter
      (fun i => (i + 1) % (q.length / quantiles) = 0)).getLast? = some (q.length - 1)
  · rw [if_pos hlast, filterMap_getElem_getLast? q _ hall, hlast]
    show q[q.length - 1]? = q.getLast?
    rw [List.getLast?_eq_getElem?]
  · rw [if_neg hlast]
    obtain ⟨x, hx⟩ := Option.isSome_iff_exists.mp (List.getLast?_isSome.mpr hne)
    rw [hx]
    show (_ ++ [x]).getLast? = some x
    rw [List.getLast?_concat]

theorem pushEvent_length (q : List (ℚ × ℚ)) (e : ℚ × ℚ) :
    (pushEvent q e).length = pushLen q.length := by
  unfold pushEvent pushLen
  have hc : (q ++ [e]).length = q.length + 1 := by simp
  rw [hc]
  by_cases h : pruneThreshold < q.length + 1
  · rw [if_pos h, if_pos h, thinQueue_length _ (by simp), hc]
  · rw [if_neg h, if_neg h, hc]

theorem pushEvent_getLast? (q : List (ℚ × ℚ)) (e : ℚ × ℚ) :
    (pushEvent q e).getLast? = some e := by
  unfold pushEvent
  by_cases h : pruneThreshold < (q ++ [e]).length
  · rw [if_pos h, thinQueue_getLast? _ (by simp), List.getLast?_concat]
  · rw [if_neg h, List.getLast?_concat]

theorem foldl_pushEvent_length :
    ∀ (xs : List (ℚ × ℚ)) (q : List (ℚ × ℚ)),
      (List.foldl pushEvent q xs).length = lenAfterPushes xs.length q.length := by
  intro xs
  induction xs with
  | nil => intro q; rfl
  | cons x rest ih =>
    intro q
    rw [List.foldl_cons]
    show (List.foldl pushEvent (pushEvent q x) rest).length =
      lenAfterPushes (rest.length + 1) q.length
    rw [ih (pushEvent q x), pushEvent_length]
    rfl

theorem foldl_pushEvent_getLast? :
    ∀ (xs : List (ℚ × ℚ)) (q : List (ℚ × ℚ)), xs ≠ [] →
      (List.foldl pushEvent q xs).getLast? = xs.getLast? := by
  intro xs
  induction xs with
  | nil => intro q h; exact absurd rfl h
  | cons x rest ih =>
    intro q _
    cases rest with
    | nil =>
      show (pushEvent q x).getLast? = [x].getLast?
      rw [pushEvent_getLast?]
      rfl
    | cons y rest2 =>
      show (List.foldl pushEvent (pushEvent q x) (y :: rest2)).getLast? =
        (x :: y :: rest2).getLast?
      rw [ih (pushEvent q x) (by simp), List.getLast?_cons_cons]

/-- C4: whenever the queue exceeds the threshold it is thinned by the
quantile sampling step; the most recently pushed pointer event always
survives the push/thin step; and a burst of 20 pointer events submitted
with no drain in between leaves at most `quantiles + 1` events to be
dequeued, the most recent one dequeued first. -/
theorem c4_coalescer_overflow :
    (∀ (q : List (ℚ × ℚ)) (e : ℚ × ℚ), pruneThreshold < (q ++ [e]).length →
      pushEvent q e = thinQueue (q ++ [e])) ∧
    (∀ (q : List (ℚ × ℚ)) (e : ℚ × ℚ), (pushEvent q e).getLast? = some e) ∧
    (∀ xs : List (ℚ × ℚ), xs.length = 20 →
      (drainQueue (List.foldl pushEvent [] xs)).length ≤ quantiles + 1 ∧
      (drainQueue (List.foldl pushEvent [] xs)).head? = xs.getLast?) := by
  refine ⟨?_, pushEvent_getLast?, ?_⟩
  · intro q e h
    unfold pushEvent
    rw [if_pos h]
  · intro xs hlen
    have hne : xs ≠ [] := by
      intro h
      rw [h] at hlen
      simp at hlen
    constructor
    · show (List.foldl pushEvent [] xs).reverse.length ≤ quantiles + 1
      rw [List.length_reverse, foldl_pushEvent_length xs [], hlen]
      decide
    · show (List.foldl pushEvent [] xs).reverse.head? = xs.getLast?
      rw [List.head?_reverse]
      exact foldl_pushEvent_getLast? xs [] hne

theorem c4_coalescer_overflow_witness :
    ((List.replicate 20 ((3 : ℚ), (0 : ℚ))).length = 20) ∧
    (drainQueue (List.foldl pushEvent []
      (List.replicate 20 ((3 : ℚ), (0 : ℚ))))).length ≤ quantiles + 1 ∧
    (drainQueue (List.foldl pushEvent []
      (List.replicate 20 ((3 : ℚ), (0 : ℚ))))).head? =
      (List.replicate 20 ((3 : ℚ), (0 : ℚ))).getLast? := by
  have hlen : (List.replicate 20 ((3 : ℚ), (0 : ℚ))).length = 20 := by
    rw [List.length_replicate]
  exact ⟨hlen, (c4_coalescer_overflow.2.2 _ hlen).1, (c4_coalescer_overflow.2.2 _ hlen).2⟩

end VisxChart
